import Mathlib

/-!
Shallow embedding of `src/github_metrics/main.py` (the github-metrics
repository) and proofs about the claims of its specification.

Modelling conventions:
* Python `None`-able JSON fields become `Option`; Python string truthiness
  (`None` and `""` are falsy) is `strTruthy`.
* A JSON field that holds a size is `SizeField`: `missing` for an absent or
  falsy value (which `x or 0` turns into `0`), `intVal n` for an integer
  (or an integer-parsable value), `badVal` for a truthy value on which
  `int(...)` raises.
* Machine floats of the source become exact rationals `ℚ`.
* Exceptions become explicit result constructors: `GitHubAPIError` is
  `ExecResult.apiErr`; an exception raised by the HTTP library that no
  `except` clause in the program catches (e.g. a connection failure raised
  inside `session.post`) is `ExecResult.unhandled`.
* Cursor-driven pagination is modelled by lists of pages: the page a cursor
  would reach is the next list element.
-/

namespace GithubMetrics

/-- Python truthiness of an optional string: `None` and `""` are falsy. -/
def strTruthy : Option String → Bool
  | none => false
  | some s => s != ""

/-- Python `a or b` for two optional strings (`name_with_owner = node.get("nameWithOwner") or repo_name`). -/
def pyOrOpt (a b : Option String) : Option String :=
  if strTruthy a then a else b

/-- Python `str.lower()`, written as a character-list map (rather than through
`String.toLower`, whose byte-position recursion does not reduce inside the
kernel). -/
def strLower (s : String) : String := ⟨s.data.map Char.toLower⟩

/-- Python slicing `s[:n]`, written as a character-list take. -/
def strTake (s : String) (n : Nat) : String := ⟨s.data.take n⟩

/-- `DEFAULT_LANGUAGE_COLOR` from the source. -/
def DEFAULT_LANGUAGE_COLOR : String := "#ededed"

/-- Python `s or dflt` where `s` is an optional string and the result is used as a string. -/
def pyOrStr (a : Option String) (dflt : String) : String :=
  match a with
  | some s => if s = "" then dflt else s
  | none => dflt

/-- A JSON value sitting in an integer-like field (`size`, `totalContributions`).
`missing` is an absent or falsy value (`x or 0` maps it to `0`), `intVal n` an
integer value, `badVal` a truthy value on which `int(...)` raises. -/
inductive SizeField
  | missing
  | intVal (n : Int)
  | badVal
deriving DecidableEq

/-- The value `int(field or 0)` produces: `none` when `int` raises. -/
def parseSize : SizeField → Option Int
  | .missing => some 0
  | .intVal n => some n
  | .badVal => none

/-- The settings record (`Config`), restricted to the fields the pipeline reads.
`excluded_repos` and `excluded_languages` are stored lowercased by `parse_csv`. -/
structure Config where
  login : String
  excludedRepos : List String
  excludedLanguages : List String
  excludeForked : Bool
  languagesLimit : Nat
deriving DecidableEq

/-- One entry of a GraphQL `errors` list: its optional `message` field. -/
structure GraphQLError where
  message : Option String
deriving DecidableEq

/-- A decoded 2xx response body: optional `errors` list and optional `data`. -/
structure Payload (α : Type) where
  errors : Option (List GraphQLError)
  data : Option α
deriving DecidableEq

/-- The body of an HTTP response: either undecodable (`response.json()` raises
`ValueError`) or a decoded payload. -/
inductive Body (α : Type)
  | invalidJson
  | json (payload : Payload α)
deriving DecidableEq

/-- Outcome of `session.post`: either the call itself raises (connection
failure, timeout — an exception the program never catches), or a response
with a status code, a body and a text. -/
inductive HttpOutcome (α : Type)
  | connFailure
  | response (status : Nat) (body : Body α) (text : String)
deriving DecidableEq

/-- Result of `GraphQLClient.execute`: the returned `data`, a raised
`GitHubAPIError` with its message, or an exception that `execute` does not
classify and that propagates to its caller untouched. -/
inductive ExecResult (α : Type)
  | ok (data : α)
  | apiErr (message : String)
  | unhandled
deriving DecidableEq

/-- Does the result carry the `GitHubAPIError` classification? -/
def ExecResult.isApiErr {α : Type} : ExecResult α → Bool
  | .apiErr _ => true
  | _ => false

/-- `GraphQLClient.execute`: `session.post`, `raise_for_status` (which raises
`HTTPError` exactly for status codes in `[400, 600)`), JSON decoding, the
`errors` list check, and the `data` extraction, in source order. The message
text attached to the HTTP-error case abstracts the `requests` exception
rendering to the status code and the response text. -/
def GraphQLClient.execute {α : Type} : HttpOutcome α → ExecResult α
  | .connFailure => .unhandled
  | .response status body text =>
    if 400 ≤ status ∧ status < 600 then
      .apiErr ("GitHub API HTTP error: " ++ toString status ++ " - " ++ text)
    else
      match body with
      | .invalidJson => .apiErr "GitHub API returned invalid JSON."
      | .json payload =>
        let errs := payload.errors.getD []
        if errs.isEmpty then
          match payload.data with
          | none => .apiErr "GitHub API response missing data field."
          | some d => .ok d
        else
          .apiErr ("GitHub API error: " ++
            String.intercalate ", " (errs.map fun e => e.message.getD "unknown error"))

/-- One language edge: optional `node` (with optional `name` and `color`) and a `size` field. -/
structure LangNode where
  name : Option String
  color : Option String
deriving DecidableEq

/-- One edge of a `languages` listing. -/
structure Edge where
  node : Option LangNode
  size : SizeField
deriving DecidableEq

/-- The `name` of an edge's language node, after `edge.get("node") or {}`. -/
def Edge.langName (e : Edge) : Option String :=
  (e.node.getD { name := none, color := none }).name

/-- The `color` of an edge's language node, after `edge.get("node") or {}`. -/
def Edge.langColor (e : Edge) : Option String :=
  (e.node.getD { name := none, color := none }).color

/-- `lang_node.get("color") or DEFAULT_LANGUAGE_COLOR` for an edge. -/
def Edge.defaultedColor (e : Edge) : String :=
  pyOrStr e.langColor DEFAULT_LANGUAGE_COLOR

/-- One page returned by the dedicated language-page query: its edges and its
`pageInfo`. The page a truthy `endCursor` would fetch is the next element of
the repository node's continuation list. -/
structure LangPage where
  edges : List Edge
  hasNextPage : Bool
  endCursor : Option String
deriving DecidableEq

/-- The inline `languages` block of a repository node. -/
structure LangBlock where
  edges : List Edge
  hasNextPage : Bool
  endCursor : Option String
deriving DecidableEq

/-- `node.get("languages") or \x7b\x7d` — the block used when `languages` is absent. -/
def emptyLangBlock : LangBlock :=
  { edges := [], hasNextPage := false, endCursor := none }

/-- One repository item of a repository-listing page. `contPages` is the chain
of language pages reachable from the block's `endCursor`. -/
structure RepoNode where
  name : Option String
  nameWithOwner : Option String
  stargazerCount : Option Int
  forkCount : Option Int
  languages : Option LangBlock
  contPages : List LangPage
deriving DecidableEq

/-- `name_with_owner = node.get("nameWithOwner") or repo_name`. -/
def RepoNode.fullName (n : RepoNode) : Option String :=
  pyOrOpt n.nameWithOwner n.name

/-- The `repositoryOwner` object of one repository-listing page, with the
`repositories` container flattened in (`owner.get("repositories") or \x7b\x7d`,
`repositories.get("nodes") or []`, and the page-level `pageInfo`). -/
structure OwnerData where
  name : Option String
  login : Option String
  nodes : List RepoNode
  reposHasNextPage : Bool
deriving DecidableEq

/-- One page of the repository-listing pagination: its optional `repositoryOwner`. -/
structure RepoPage where
  owner : Option OwnerData
deriving DecidableEq

/-- Accumulated per-language totals: running size sum and representative color. -/
structure LangTotal where
  size : Int
  color : String
deriving DecidableEq

/-- Mutable accumulator state of `StatsCollector.run`'s pagination loop. -/
structure Acc where
  ownerName : Option String
  totalStars : Int
  totalForks : Int
  totalLines : Int
  repoCount : Nat
  langTotals : List (String × LangTotal)
deriving DecidableEq

/-- The accumulator at the start of `StatsCollector.run`. -/
def initAcc : Acc :=
  { ownerName := none, totalStars := 0, totalForks := 0, totalLines := 0,
    repoCount := 0, langTotals := [] }

/-- The mutation of an existing (or fresh) bucket:
`bucket["size"] = int(bucket.get("size", 0)) + size` followed by
`if not bucket.get("color") and color: bucket["color"] = color`. -/
def bumpBucket (b : LangTotal) (size : Int) (color : String) : LangTotal :=
  let b1 : LangTotal := { b with size := b.size + size }
  if b1.color = "" ∧ color ≠ "" then { b1 with color := color } else b1

/-- `language_totals.setdefault(lang_name, {"size": 0, "color": color or DEFAULT})`
followed by the bucket mutation, on an insertion-ordered association list. -/
def updateLangTotals (name : String) (size : Int) (color : String) :
    List (String × LangTotal) → List (String × LangTotal)
  | [] => [(name, bumpBucket { size := 0, color := pyOrStr (some color) DEFAULT_LANGUAGE_COLOR } size color)]
  | (k, v) :: rest =>
    if k = name then (k, bumpBucket v size color) :: rest
    else (k, v) :: updateLangTotals name size color rest

/-- Association-list lookup on the accumulator map. -/
def lookupLang (name : String) : List (String × LangTotal) → Option LangTotal
  | [] => none
  | (k, v) :: rest => if k = name then some v else lookupLang name rest

/-- The body of the per-edge loop of `StatsCollector.run`: filter the edge and,
when accepted, add its size to `total_lines` and merge it into
`language_totals`. (The `filtered_languages` list of the source only feeds a
log line and is not modelled.) -/
def processEdge (cfg : Config) (acc : Acc) (e : Edge) : Acc :=
  match (e.node.getD { name := none, color := none }).name with
  | none => acc
  | some lname =>
    if lname = "" then acc
    else if strLower lname ∈ cfg.excludedLanguages then acc
    else
      match parseSize e.size with
      | none => acc
      | some size =>
        if size ≤ 0 then acc
        else
          let color := pyOrStr (e.node.getD { name := none, color := none }).color
            DEFAULT_LANGUAGE_COLOR
          { acc with
            totalLines := acc.totalLines + size
            langTotals := updateLangTotals lname size color acc.langTotals }

/-- The size of an edge when the filter of the per-edge loop accepts it,
`none` when the edge is skipped. -/
def acceptedSize (cfg : Config) (e : Edge) : Option Int :=
  match (e.node.getD { name := none, color := none }).name with
  | none => none
  | some lname =>
    if lname = "" then none
    else if strLower lname ∈ cfg.excludedLanguages then none
    else
      match parseSize e.size with
      | none => none
      | some size => if size ≤ 0 then none else some size

/-- `StatsCollector._fetch_additional_languages`' cursor-following loop over
the chain of continuation pages: each page's edges are appended, and the loop
continues exactly when the page has a next page and a truthy `endCursor`. -/
def fetchChain : List LangPage → List Edge
  | [] => []
  | p :: rest =>
    p.edges ++ (if p.hasNextPage ∧ strTruthy p.endCursor then fetchChain rest else [])

/-- `_fetch_additional_languages(owner, name, cursor)`: the `while next_cursor`
loop runs only when the starting cursor is truthy. -/
def fetchAdditionalLanguages (cursor : Option String) (pages : List LangPage) : List Edge :=
  if strTruthy cursor then fetchChain pages else []

/-- The full edge list the run processes for one repository node: the inline
edges, extended with the continuation pages when the inline block reports a
next page and the qualified name is truthy. -/
def RepoNode.allEdges (n : RepoNode) : List Edge :=
  let lb := n.languages.getD emptyLangBlock
  lb.edges ++
    (if lb.hasNextPage ∧ strTruthy n.fullName then
      fetchAdditionalLanguages lb.endCursor n.contPages
    else [])

/-- The body of the per-repository loop of `StatsCollector.run`: skip nameless
or excluded repositories, otherwise process every edge, then add the star and
fork counts and count the repository. -/
def processNode (cfg : Config) (acc : Acc) (n : RepoNode) : Acc :=
  match n.name with
  | none => acc
  | some rn =>
    if rn = "" then acc
    else if strLower rn ∈ cfg.excludedRepos ∨ strLower (n.fullName.getD "") ∈ cfg.excludedRepos then
      acc
    else
      let acc1 := n.allEdges.foldl (processEdge cfg) acc
      { acc1 with
        totalStars := acc1.totalStars + n.stargazerCount.getD 0
        totalForks := acc1.totalForks + n.forkCount.getD 0
        repoCount := acc1.repoCount + 1 }

/-- `owner_name = owner.get("name") or owner.get("login") or self.config.login`,
executed only while `owner_name` is still unset. -/
def captureOwnerName (cfg : Config) (ow : OwnerData) (acc : Acc) : Acc :=
  match acc.ownerName with
  | some _ => acc
  | none =>
    { acc with ownerName := some (pyOrStr ow.name (pyOrStr ow.login cfg.login)) }

/-- The exceptions `StatsCollector.run` can surface: `ConfigError`,
`GitHubAPIError`, or an exception no handler classifies. -/
inductive RunError
  | configError (message : String)
  | apiError (message : String)
  | unhandledExc
deriving DecidableEq

/-- The outer `while True` pagination loop of `StatsCollector.run` over the
successive repository-listing pages: a missing `repositoryOwner` raises
`ConfigError`; otherwise the display name is captured once, every node is
processed, and the loop continues exactly when the page reports a next page. -/
def runPages (cfg : Config) : List RepoPage → Acc → Except RunError Acc
  | [], acc => .ok acc
  | page :: rest, acc =>
    match page.owner with
    | none =>
      .error (.configError
        ("GitHub owner '" ++ cfg.login ++ "' was not found or is not accessible."))
    | some ow =>
      let acc2 := ow.nodes.foldl (processNode cfg) (captureOwnerName cfg ow acc)
      if ow.reposHasNextPage then runPages cfg rest acc2 else .ok acc2

/-- `contributionCalendar` object: its `totalContributions` field. -/
structure ContribCalendar where
  totalContributions : SizeField
deriving DecidableEq

/-- `contributionsCollection` object. -/
structure ContribCollection where
  contributionCalendar : Option ContribCalendar
deriving DecidableEq

/-- The `user` object of the contributions query. -/
structure ContribUser where
  contributionsCollection : Option ContribCollection
deriving DecidableEq

/-- The `data` object of the contributions query. -/
structure ContribData where
  user : Option ContribUser
deriving DecidableEq

/-- `StatsCollector._fetch_contributions_total`: a `GitHubAPIError` from the
executor is caught and becomes `0`; an unclassified exception propagates; on
success the nested fields are extracted with `or`-defaults and `int(...)`
falling back to `0`. -/
def fetchContributionsTotal (res : ExecResult ContribData) : Except RunError Int :=
  match res with
  | .apiErr _ => .ok 0
  | .unhandled => .error .unhandledExc
  | .ok d =>
    match d.user with
    | none => .ok 0
    | some u =>
      let coll := u.contributionsCollection.getD { contributionCalendar := none }
      let cal := coll.contributionCalendar.getD { totalContributions := .missing }
      match cal.totalContributions with
      | .missing => .ok 0
      | .intVal n => .ok n
      | .badVal => .ok 0

/-- One entry of the output language list. -/
structure LanguageShare where
  name : String
  size : Int
  color : String
  percent : ℚ
deriving DecidableEq

/-- The sort key of `_build_language_shares`: descending accumulated size. -/
def bySizeDesc (a b : String × LangTotal) : Prop := b.2.size ≤ a.2.size

instance : DecidableRel bySizeDesc := fun a b =>
  inferInstanceAs (Decidable (b.2.size ≤ a.2.size))

instance : IsTotal (String × LangTotal) bySizeDesc :=
  ⟨fun a b => le_total b.2.size a.2.size⟩

instance : IsTrans (String × LangTotal) bySizeDesc :=
  ⟨fun _ _ _ hab hbc => le_trans hbc hab⟩

/-- `StatsCollector._build_language_shares`: empty on a non-positive grand
total or an empty accumulator; otherwise sort by descending size, keep the
first `languages_limit` entries, and build each share with the color clipped
to 7 characters and the exact percentage. -/
def buildLanguageShares (cfg : Config) (langTotals : List (String × LangTotal))
    (totalLines : Int) : List LanguageShare :=
  if totalLines ≤ 0 ∨ langTotals = [] then []
  else
    ((List.insertionSort bySizeDesc langTotals).take cfg.languagesLimit).map fun p =>
      { name := p.1
        size := p.2.size
        color := strTake (pyOrStr (some p.2.color) DEFAULT_LANGUAGE_COLOR) 7
        percent := if totalLines = 0 then 0 else ((p.2.size : ℚ) / (totalLines : ℚ)) * 100 }

/-- The final output record of `StatsCollector.run`. -/
structure MetricsResult where
  actorLogin : String
  displayName : String
  totalStars : Int
  totalForks : Int
  totalContributions : Int
  totalLinesChanged : Int
  totalViews : Int
  repositoryCount : Nat
  languages : List LanguageShare
deriving DecidableEq

/-- `is_fork_filter = False if self.config.exclude_forked else None`. -/
def isForkFilter (cfg : Config) : Option Bool :=
  if cfg.excludeForked then some false else none

/-- `StatsCollector.run`, with the repository pages and the outcome of the
contributions query supplied as data. -/
def StatsCollector.run (cfg : Config) (pages : List RepoPage)
    (contrib : ExecResult ContribData) : Except RunError MetricsResult := do
  let acc ← runPages cfg pages initAcc
  let totalContributions ← fetchContributionsTotal contrib
  .ok
    { actorLogin := cfg.login
      displayName := acc.ownerName.getD cfg.login
      totalStars := acc.totalStars
      totalForks := acc.totalForks
      totalContributions := totalContributions
      totalLinesChanged := acc.totalLines
      totalViews := 0
      repositoryCount := acc.repoCount
      languages := buildLanguageShares cfg acc.langTotals acc.totalLines }

/-- `str_to_bool` from the source. -/
def str_to_bool (value : Option String) (dflt : Bool) : Except String Bool :=
  match value with
  | none => .ok dflt
  | some v =>
    let normalized := strLower v.trim
    if normalized ∈ ["1", "true", "yes", "y", "on"] then .ok true
    else if normalized ∈ ["0", "false", "no", "n", "off"] then .ok false
    else .error ("Invalid boolean value: " ++ v)

/-! Specification-side observation functions, used to state properties of the
run: the sum of the accumulated sizes, and the list of accepted edge sizes a
run traverses, mirroring the run's control flow. -/

/-- The sum of the accumulated per-language sizes. -/
def langSum (l : List (String × LangTotal)) : Int :=
  (l.map fun p => p.2.size).sum

/-- The sizes of the accepted edges of one repository node: empty when the
node is nameless or excluded, otherwise the accepted sizes of its full edge
list. -/
def nodeAcceptedSizes (cfg : Config) (n : RepoNode) : List Int :=
  match n.name with
  | none => []
  | some rn =>
    if rn = "" then []
    else if strLower rn ∈ cfg.excludedRepos ∨ strLower (n.fullName.getD "") ∈ cfg.excludedRepos then
      []
    else n.allEdges.filterMap (acceptedSize cfg)

/-- The accepted sizes of a list of repository nodes, in traversal order. -/
def nodesAcceptedSizes (cfg : Config) : List RepoNode → List Int
  | [] => []
  | n :: rest => nodeAcceptedSizes cfg n ++ nodesAcceptedSizes cfg rest

/-- The accepted sizes a run over the given pages traverses: the pagination
stops after the first page that reports no next page, and a page without an
owner aborts the run. -/
def pagesAcceptedSizes (cfg : Config) : List RepoPage → List Int
  | [] => []
  | page :: rest =>
    match page.owner with
    | none => []
    | some ow =>
      nodesAcceptedSizes cfg ow.nodes ++
        (if ow.reposHasNextPage then pagesAcceptedSizes cfg rest else [])

/-! Concrete inputs used by witnesses and counterexamples. -/

/-- A configuration excluding repository name `b` and language name `html`. -/
def cfgS : Config :=
  { login := "octo", excludedRepos := ["b"], excludedLanguages := ["html"],
    excludeForked := true, languagesLimit := 10 }

/-- An accepted Go edge of 400 bytes. -/
def edgeGo : Edge :=
  { node := some { name := some "Go", color := some "#00ADD8" }, size := .intVal 400 }

/-- An accepted colorless Python edge of 100 bytes. -/
def edgePy : Edge :=
  { node := some { name := some "Python", color := none }, size := .intVal 100 }

/-- A 9999-byte Go edge sitting in an excluded repository. -/
def edgeGoBig : Edge :=
  { node := some { name := some "Go", color := some "#00ADD8" }, size := .intVal 9999 }

/-- The language block of the included repository `a`. -/
def lbA : LangBlock := { edges := [edgeGo, edgePy], hasNextPage := false, endCursor := none }

/-- The language block of the excluded repository `b`. -/
def lbB : LangBlock := { edges := [edgeGoBig], hasNextPage := false, endCursor := none }

/-- Included repository `a`: 2 stars, 1 fork, Go 400 and Python 100. -/
def nodeA : RepoNode :=
  { name := some "a", nameWithOwner := some "octo/a", stargazerCount := some 2,
    forkCount := some 1, languages := some lbA, contPages := [] }

/-- Excluded repository `b`: 50 stars, 9 forks, Go 9999. -/
def nodeB : RepoNode :=
  { name := some "b", nameWithOwner := some "octo/b", stargazerCount := some 50,
    forkCount := some 9, languages := some lbB, contPages := [] }

/-- The owner object of the single scenario page. -/
def ownerS : OwnerData :=
  { name := some "Octo", login := some "octo",
    nodes := [nodeA, nodeB], reposHasNextPage := false }

/-- The single scenario page. -/
def pageS : RepoPage := { owner := some ownerS }

/-- The accumulator the scenario run produces. -/
def accS : Acc :=
  { ownerName := some "Octo", totalStars := 2, totalForks := 1, totalLines := 500,
    repoCount := 1,
    langTotals := [("Go", { size := 400, color := "#00ADD8" }),
                   ("Python", { size := 100, color := "#ededed" })] }

/-- An accepted edge for language `X` whose color is missing. -/
def edgeX1 : Edge := { node := some { name := some "X", color := none }, size := .intVal 5 }

/-- A later accepted edge for language `X` carrying a non-empty color. -/
def edgeX2 : Edge := { node := some { name := some "X", color := some "#ff0000" }, size := .intVal 7 }

/-- The language block of the color-order repository: `X` colorless first,
then `X` colored. -/
def lbX : LangBlock := { edges := [edgeX1, edgeX2], hasNextPage := false, endCursor := none }

/-- The repository holding the two `X` edges. -/
def nodeX : RepoNode :=
  { name := some "r", nameWithOwner := some "octo/r", stargazerCount := some 0,
    forkCount := some 0, languages := some lbX, contPages := [] }

/-- The single page of the color-order run. -/
def pageX : RepoPage :=
  { owner := some { name := some "Octo", login := some "octo", nodes := [nodeX], reposHasNextPage := false } }

/-- A language block that reports a continuation: one inline edge, a truthy cursor. -/
def lbC : LangBlock := { edges := [edgeGo], hasNextPage := true, endCursor := some "cur1" }

/-- The continuation chain behind `lbC`'s cursor: two further pages. -/
def contC : List LangPage :=
  [ { edges := [edgePy], hasNextPage := true, endCursor := some "cur2" },
    { edges := [edgeX2], hasNextPage := false, endCursor := none } ]

/-- A repository whose language listing needs continuation fetches. -/
def nodeC : RepoNode :=
  { name := some "big", nameWithOwner := some "octo/big", stargazerCount := some 3,
    forkCount := some 0, languages := some lbC, contPages := contC }

/-- Claim C7 (amended): `execute` raises the `GitHubAPIError` classification
for every response whose HTTP status is in `[400, 600)` (the statuses
`raise_for_status` rejects), with the HTTP-error message; a connection failure
propagates the underlying transport exception unclassified (`unhandled`), not
as an API-kind error. -/
theorem C7_execute_http_failure (α : Type) (st : Nat) (b : Body α) (txt : String)
    (h : 400 ≤ st ∧ st < 600) :
    GraphQLClient.execute (.response st b txt)
      = .apiErr ("GitHub API HTTP error: " ++ toString st ++ " - " ++ txt) ∧
    GraphQLClient.execute (α := α) .connFailure = .unhandled :=
  ⟨by simp [GraphQLClient.execute, h], rfl⟩

/-- Claim C7 counterexample: a connection failure does not produce the
API-error classification (it propagates unclassified), and a non-2xx status
below 400 (here 304) is not treated as a failure at all. -/
theorem C7_counterexample :
    (GraphQLClient.execute (α := Nat) .connFailure).isApiErr = false ∧
    GraphQLClient.execute (α := Nat) .connFailure = .unhandled ∧
    GraphQLClient.execute (.response 304 (.json { errors := none, data := some (7 : Nat) }) "")
      = .ok 7 :=
  ⟨rfl, rfl, by decide⟩

/-- Claim C7 witness: the amended theorem at status 500 with an opaque body. -/
theorem C7_http_failure_witness :
    GraphQLClient.execute (.response 500 (Body.invalidJson (α := Nat)) "boom")
      = .apiErr ("GitHub API HTTP error: " ++ toString (500 : Nat) ++ " - " ++ "boom") ∧
    GraphQLClient.execute (α := Nat) .connFailure = .unhandled :=
  C7_execute_http_failure Nat 500 .invalidJson "boom" (by omega)

/-- Claim C8: on a 2xx response, `execute` raises the API-error classification
when the body is not valid JSON, when the response carries a non-empty
`errors` list (with the message joining all individual messages,
comma-separated, in order), or when `data` is absent; otherwise it returns
exactly the `data` object. -/
theorem C8_execute_protocol (α : Type) (st : Nat) (txt : String)
    (h2xx : 200 ≤ st ∧ st < 300) :
    GraphQLClient.execute (α := α) (.response st .invalidJson txt)
      = .apiErr "GitHub API returned invalid JSON." ∧
    (∀ p : Payload α, p.errors.getD [] ≠ [] →
      GraphQLClient.execute (.response st (.json p) txt)
        = .apiErr ("GitHub API error: " ++
            String.intercalate ", " ((p.errors.getD []).map fun e => e.message.getD "unknown error"))) ∧
    (∀ p : Payload α, p.errors.getD [] = [] → p.data = none →
      GraphQLClient.execute (.response st (.json p) txt)
        = .apiErr "GitHub API response missing data field.") ∧
    (∀ (p : Payload α) (d : α), p.errors.getD [] = [] → p.data = some d →
      GraphQLClient.execute (.response st (.json p) txt) = .ok d) := by
  have hlt : ¬(400 ≤ st ∧ st < 600) := by omega
  refine ⟨by simp [GraphQLClient.execute, hlt], ?_, ?_, ?_⟩
  · intro p hp
    simp [GraphQLClient.execute, hlt, List.isEmpty_iff, hp]
  · intro p hp hd
    simp [GraphQLClient.execute, hlt, List.isEmpty_iff, hp, hd]
  · intro p d hp hd
    simp [GraphQLClient.execute, hlt, List.isEmpty_iff, hp, hd]

/-- Claim C8 witness: the four outcomes at status 200 — an error list joined
comma-separated in order (with the `unknown error` placeholder), a success
returning the data object, a missing `data` field, and an invalid body. -/
theorem C8_execute_protocol_witness :
    GraphQLClient.execute
        (.response 200 (.json { errors := some [{ message := some "a" }, { message := none }], data := some (3 : Nat) }) "t")
      = .apiErr "GitHub API error: a, unknown error" ∧
    GraphQLClient.execute (.response 200 (.json { errors := none, data := some (3 : Nat) }) "t")
      = .ok 3 ∧
    GraphQLClient.execute (.response 200 (.json (Payload.mk none (none : Option Nat))) "t")
      = .apiErr "GitHub API response missing data field." ∧
    GraphQLClient.execute (.response 200 (Body.invalidJson (α := Nat)) "t")
      = .apiErr "GitHub API returned invalid JSON." := by
  have h := C8_execute_protocol Nat 200 "t" (by omega)
  exact ⟨h.2.1 _ (by decide), h.2.2.2 _ 3 rfl rfl, h.2.2.1 _ rfl rfl, h.1⟩

/-- Claim C9 (amended): a `GitHubAPIError`-classified failure of the
contributions query is swallowed into a zero total, and on success an absent
user, an absent `totalContributions` or a non-numeric value yield zero while
a numeric value is returned as its integer; but an unclassified exception
(e.g. a connection failure) propagates instead of being swallowed. -/
theorem C9_contributions (m : String) (n : Int) :
    fetchContributionsTotal (.apiErr m) = .ok 0 ∧
    fetchContributionsTotal .unhandled = .error .unhandledExc ∧
    fetchContributionsTotal (.ok { user := none }) = .ok 0 ∧
    fetchContributionsTotal (.ok { user := some { contributionsCollection := none } }) = .ok 0 ∧
    fetchContributionsTotal (.ok { user := some { contributionsCollection := some { contributionCalendar := none } } }) = .ok 0 ∧
    fetchContributionsTotal (.ok { user := some { contributionsCollection := some { contributionCalendar := some { totalContributions := .missing } } } }) = .ok 0 ∧
    fetchContributionsTotal (.ok { user := some { contributionsCollection := some { contributionCalendar := some { totalContributions := .badVal } } } }) = .ok 0 ∧
    fetchContributionsTotal (.ok { user := some { contributionsCollection := some { contributionCalendar := some { totalContributions := .intVal n } } } }) = .ok n :=
  ⟨rfl, rfl, rfl, rfl, rfl, rfl, rfl, rfl⟩

/-- Claim C9 counterexample: an unclassified transport exception during the
contributions fetch is not swallowed into zero — it propagates, and the whole
run fails with it instead of continuing. -/
theorem C9_counterexample :
    fetchContributionsTotal .unhandled = .error .unhandledExc ∧
    fetchContributionsTotal .unhandled ≠ .ok 0 ∧
    StatsCollector.run cfgS [pageS] .unhandled = .error .unhandledExc := by
  exact ⟨rfl, fun h => Except.noConfusion h, rfl⟩

/-- Claim C10: with the fork-exclusion variable unset, `str_to_bool` returns
its default `true`, so fork exclusion is on by default and the repository
query carries the non-fork filter (`isFork: false`); a present value raises a
configuration error exactly when its normalized form is in neither accepted
set. -/
theorem C10_fork_default (s : String) :
    str_to_bool none true = .ok true ∧
    (∀ d : Bool, str_to_bool none d = .ok d) ∧
    (∀ cfg : Config, cfg.excludeForked = true → isForkFilter cfg = some false) ∧
    ((∃ msg, str_to_bool (some s) true = .error msg) ↔
      strLower s.trim ∉ (["1", "true", "yes", "y", "on"] : List String) ∧
      strLower s.trim ∉ (["0", "false", "no", "n", "off"] : List String)) := by
  refine ⟨rfl, fun d => rfl, fun cfg h => by simp [isForkFilter, h], ?_⟩
  constructor
  · rintro ⟨msg, hmsg⟩
    by_cases h1 : strLower s.trim ∈ (["1", "true", "yes", "y", "on"] : List String)
    · simp [str_to_bool, h1] at hmsg
    · by_cases h2 : strLower s.trim ∈ (["0", "false", "no", "n", "off"] : List String)
      · simp [str_to_bool, h1, h2] at hmsg
      · exact ⟨h1, h2⟩
  · rintro ⟨h1, h2⟩
    exact ⟨"Invalid boolean value: " ++ s, by simp [str_to_bool, h1, h2]⟩

/-! Helper lemmas on the accumulator operations. -/

theorem langSum_nil : langSum [] = 0 := rfl

theorem langSum_cons (p : String × LangTotal) (l : List (String × LangTotal)) :
    langSum (p :: l) = p.2.size + langSum l := by
  simp [langSum]

theorem bumpBucket_size (b : LangTotal) (s : Int) (c : String) :
    (bumpBucket b s c).size = b.size + s := by
  simp only [bumpBucket]
  split <;> rfl

theorem bumpBucket_color_of_ne (b : LangTotal) (s : Int) (c : String) (h : b.color ≠ "") :
    (bumpBucket b s c).color = b.color := by
  simp only [bumpBucket]
  rw [if_neg]
  rintro ⟨h1, -⟩
  exact h h1

theorem pyOrStr_ne_empty (a : Option String) (dflt : String) (h : dflt ≠ "") :
    pyOrStr a dflt ≠ "" := by
  cases a with
  | none => simpa [pyOrStr] using h
  | some s =>
    by_cases hs : s = "" <;> simp [pyOrStr, hs, h]

theorem langSum_updateLangTotals (name : String) (s : Int) (c : String)
    (l : List (String × LangTotal)) :
    langSum (updateLangTotals name s c l) = langSum l + s := by
  induction l with
  | nil => simp [updateLangTotals, langSum_cons, langSum_nil, bumpBucket_size]
  | cons p rest ih =>
    obtain ⟨k, v⟩ := p
    by_cases h : k = name
    · simp [updateLangTotals, h, langSum_cons, bumpBucket_size]
      ring
    · simp only [updateLangTotals, if_neg h, langSum_cons, ih]
      ring

theorem lookupLang_updateLangTotals_self (name : String) (s : Int) (c : String)
    (l : List (String × LangTotal)) :
    lookupLang name (updateLangTotals name s c l)
      = some (bumpBucket
          ((lookupLang name l).getD { size := 0, color := pyOrStr (some c) DEFAULT_LANGUAGE_COLOR })
          s c) := by
  induction l with
  | nil => simp [updateLangTotals, lookupLang]
  | cons p rest ih =>
    obtain ⟨k, v⟩ := p
    by_cases h : k = name
    · simp [updateLangTotals, h, lookupLang]
    · simp [updateLangTotals, lookupLang, h, ih]

theorem lookupLang_updateLangTotals_other (name k : String) (h : k ≠ name) (s : Int)
    (c : String) (l : List (String × LangTotal)) :
    lookupLang k (updateLangTotals name s c l) = lookupLang k l := by
  induction l with
  | nil => simp [updateLangTotals, lookupLang, Ne.symm h]
  | cons p rest ih =>
    obtain ⟨k2, v⟩ := p
    by_cases h2 : k2 = name
    · subst h2
      simp [updateLangTotals, lookupLang, Ne.symm h]
    · simp only [updateLangTotals, if_neg h2, lookupLang]
      by_cases h3 : k2 = k
      · simp [h3]
      · simp [h3, ih]

theorem updateLangTotals_keys {Q : String → Prop} (name : String) (s : Int) (c : String)
    (l : List (String × LangTotal)) (hq : Q name) (hl : ∀ p ∈ l, Q p.1) :
    ∀ p ∈ updateLangTotals name s c l, Q p.1 := by
  induction l with
  | nil =>
    intro p hp
    simp only [updateLangTotals, List.mem_singleton] at hp
    simpa [hp]
  | cons q rest ih =>
    obtain ⟨k, v⟩ := q
    intro p hp
    by_cases h : k = name
    · simp only [updateLangTotals, if_pos h, List.mem_cons] at hp
      rcases hp with hp | hp
      · simpa [hp, h]
      · exact hl p (List.mem_cons_of_mem _ hp)
    · simp only [updateLangTotals, if_neg h, List.mem_cons] at hp
      rcases hp with hp | hp
      · exact hp ▸ hl (k, v) (List.mem_cons_self _ _)
      · exact ih (fun q hq2 => hl q (List.mem_cons_of_mem _ hq2)) p hp

theorem updateLangTotals_colors (name : String) (s : Int) (c : String)
    (l : List (String × LangTotal)) (hl : ∀ p ∈ l, p.2.color ≠ "") :
    ∀ p ∈ updateLangTotals name s c l, p.2.color ≠ "" := by
  induction l with
  | nil =>
    intro p hp
    simp only [updateLangTotals, List.mem_singleton] at hp
    subst hp
    have hne : pyOrStr (some c) DEFAULT_LANGUAGE_COLOR ≠ "" :=
      pyOrStr_ne_empty (some c) DEFAULT_LANGUAGE_COLOR (by decide)
    have hcol : (bumpBucket { size := 0, color := pyOrStr (some c) DEFAULT_LANGUAGE_COLOR } s c).color
        = pyOrStr (some c) DEFAULT_LANGUAGE_COLOR :=
      bumpBucket_color_of_ne _ s c hne
    rw [hcol]
    exact hne
  | cons q rest ih =>
    obtain ⟨k, v⟩ := q
    intro p hp
    by_cases h : k = name
    · simp only [updateLangTotals, if_pos h, List.mem_cons] at hp
      rcases hp with hp | hp
      · have hv : v.color ≠ "" := hl (k, v) (List.mem_cons_self _ _)
        rw [hp]
        simpa [bumpBucket_color_of_ne v s c hv] using hv
      · exact hl p (List.mem_cons_of_mem _ hp)
    · simp only [updateLangTotals, if_neg h, List.mem_cons] at hp
      rcases hp with hp | hp
      · exact hp ▸ hl (k, v) (List.mem_cons_self _ _)
      · exact ih (fun q hq2 => hl q (List.mem_cons_of_mem _ hq2)) p hp

/-! Case lemmas for the per-edge filter. -/

theorem processEdge_skipped (cfg : Config) (acc : Acc) (e : Edge)
    (h : acceptedSize cfg e = none) : processEdge cfg acc e = acc := by
  obtain ⟨nd, sz⟩ := e
  cases nd with
  | none => rfl
  | some ln =>
    obtain ⟨nm, col⟩ := ln
    cases nm with
    | none => rfl
    | some lname =>
      by_cases h1 : lname = ""
      · simp [processEdge, h1]
      · by_cases h2 : strLower lname ∈ cfg.excludedLanguages
        · simp [processEdge, h1, h2]
        · cases hp : parseSize sz with
          | none => simp [processEdge, h1, h2, hp]
          | some size =>
            by_cases h3 : size ≤ 0
            · simp [processEdge, h1, h2, hp, h3]
            · exfalso
              simp [acceptedSize, h1, h2, hp, h3] at h

theorem processEdge_accepted (cfg : Config) (acc : Acc) (e : Edge) (lname : String) (s : Int)
    (hname : e.langName = some lname) (hacc : acceptedSize cfg e = some s) :
    processEdge cfg acc e =
      { acc with totalLines := acc.totalLines + s,
                 langTotals := updateLangTotals lname s e.defaultedColor acc.langTotals } := by
  obtain ⟨nd, sz⟩ := e
  cases nd with
  | none => exact absurd hacc (by simp [acceptedSize])
  | some ln =>
    obtain ⟨nm, col⟩ := ln
    cases nm with
    | none => exact absurd hacc (by simp [acceptedSize])
    | some lname2 =>
      have hname2 : lname2 = lname := by
        simpa [Edge.langName] using hname
      subst hname2
      by_cases h1 : lname2 = ""
      · exact absurd hacc (by simp [acceptedSize, h1])
      · by_cases h2 : strLower lname2 ∈ cfg.excludedLanguages
        · exact absurd hacc (by simp [acceptedSize, h1, h2])
        · cases hp : parseSize sz with
          | none => exact absurd hacc (by simp [acceptedSize, h1, h2, hp])
          | some size =>
            by_cases h3 : size ≤ 0
            · exact absurd hacc (by simp [acceptedSize, h1, h2, hp, h3])
            · have hs : size = s := by
                simpa [acceptedSize, h1, h2, hp, h3] using hacc
              subst hs
              simp [processEdge, h1, h2, hp, h3, Edge.defaultedColor, Edge.langColor]

theorem acceptedSize_name (cfg : Config) (e : Edge) (s : Int)
    (h : acceptedSize cfg e = some s) :
    ∃ lname, e.langName = some lname ∧ lname ≠ "" ∧
      strLower lname ∉ cfg.excludedLanguages ∧ 0 < s := by
  obtain ⟨nd, sz⟩ := e
  cases nd with
  | none => exact absurd h (by simp [acceptedSize])
  | some ln =>
    obtain ⟨nm, col⟩ := ln
    cases nm with
    | none => exact absurd h (by simp [acceptedSize])
    | some lname =>
      refine ⟨lname, by simp [Edge.langName], ?_⟩
      by_cases h1 : lname = ""
      · exact absurd h (by simp [acceptedSize, h1])
      · by_cases h2 : strLower lname ∈ cfg.excludedLanguages
        · exact absurd h (by simp [acceptedSize, h1, h2])
        · cases hp : parseSize sz with
          | none => exact absurd h (by simp [acceptedSize, h1, h2, hp])
          | some size =>
            by_cases h3 : size ≤ 0
            · exact absurd h (by simp [acceptedSize, h1, h2, hp, h3])
            · have hs : size = s := by
                simpa [acceptedSize, h1, h2, hp, h3] using h
              exact ⟨h1, h2, by omega⟩

theorem acceptedSize_pos (cfg : Config) (e : Edge) (s : Int)
    (h : acceptedSize cfg e = some s) : 0 < s := by
  obtain ⟨-, -, -, -, hs⟩ := acceptedSize_name cfg e s h
  exact hs

theorem processEdge_totalLines (cfg : Config) (acc : Acc) (e : Edge) :
    (processEdge cfg acc e).totalLines = acc.totalLines + (acceptedSize cfg e).getD 0 := by
  cases h : acceptedSize cfg e with
  | none => rw [processEdge_skipped cfg acc e h]; simp
  | some s =>
    obtain ⟨lname, hname, -⟩ := acceptedSize_name cfg e s h
    rw [processEdge_accepted cfg acc e lname s hname h]
    rfl

theorem processEdge_langSum (cfg : Config) (acc : Acc) (e : Edge) :
    langSum (processEdge cfg acc e).langTotals
      = langSum acc.langTotals + (acceptedSize cfg e).getD 0 := by
  cases h : acceptedSize cfg e with
  | none => rw [processEdge_skipped cfg acc e h]; simp
  | some s =>
    obtain ⟨lname, hname, -⟩ := acceptedSize_name cfg e s h
    rw [processEdge_accepted cfg acc e lname s hname h]
    exact langSum_updateLangTotals lname s e.defaultedColor acc.langTotals

theorem processEdge_misc (cfg : Config) (acc : Acc) (e : Edge) :
    (processEdge cfg acc e).ownerName = acc.ownerName ∧
    (processEdge cfg acc e).totalStars = acc.totalStars ∧
    (processEdge cfg acc e).totalForks = acc.totalForks ∧
    (processEdge cfg acc e).repoCount = acc.repoCount := by
  cases h : acceptedSize cfg e with
  | none => rw [processEdge_skipped cfg acc e h]; exact ⟨rfl, rfl, rfl, rfl⟩
  | some s =>
    obtain ⟨lname, hname, -⟩ := acceptedSize_name cfg e s h
    rw [processEdge_accepted cfg acc e lname s hname h]
    exact ⟨rfl, rfl, rfl, rfl⟩

theorem foldl_processEdge_totalLines (cfg : Config) (l : List Edge) (acc : Acc) :
    (l.foldl (processEdge cfg) acc).totalLines
      = acc.totalLines + (l.filterMap (acceptedSize cfg)).sum := by
  induction l generalizing acc with
  | nil => simp
  | cons e l ih =>
    rw [List.foldl_cons, ih, processEdge_totalLines]
    cases h : acceptedSize cfg e <;> simp [List.filterMap_cons, h] <;> ring

theorem foldl_processEdge_langSum (cfg : Config) (l : List Edge) (acc : Acc) :
    langSum ((l.foldl (processEdge cfg) acc).langTotals)
      = langSum acc.langTotals + (l.filterMap (acceptedSize cfg)).sum := by
  induction l generalizing acc with
  | nil => simp
  | cons e l ih =>
    rw [List.foldl_cons, ih, processEdge_langSum]
    cases h : acceptedSize cfg e <;> simp [List.filterMap_cons, h] <;> ring

theorem foldl_processEdge_misc (cfg : Config) (l : List Edge) (acc : Acc) :
    (l.foldl (processEdge cfg) acc).ownerName = acc.ownerName ∧
    (l.foldl (processEdge cfg) acc).totalStars = acc.totalStars ∧
    (l.foldl (processEdge cfg) acc).totalForks = acc.totalForks ∧
    (l.foldl (processEdge cfg) acc).repoCount = acc.repoCount := by
  induction l generalizing acc with
  | nil => exact ⟨rfl, rfl, rfl, rfl⟩
  | cons e l ih =>
    rw [List.foldl_cons]
    obtain ⟨i1, i2, i3, i4⟩ := ih (processEdge cfg acc e)
    obtain ⟨m1, m2, m3, m4⟩ := processEdge_misc cfg acc e
    exact ⟨i1.trans m1, i2.trans m2, i3.trans m3, i4.trans m4⟩

/-! Per-repository-node lemmas. -/

theorem processNode_totalLines (cfg : Config) (acc : Acc) (n : RepoNode) :
    (processNode cfg acc n).totalLines = acc.totalLines + (nodeAcceptedSizes cfg n).sum := by
  cases hn : n.name with
  | none => simp [processNode, nodeAcceptedSizes, hn]
  | some rn =>
    by_cases h1 : rn = ""
    · simp [processNode, nodeAcceptedSizes, hn, h1]
    · by_cases h2 : strLower rn ∈ cfg.excludedRepos ∨ strLower (n.fullName.getD "") ∈ cfg.excludedRepos
      · simp [processNode, nodeAcceptedSizes, hn, h1, h2]
      · simp only [processNode, nodeAcceptedSizes, hn, if_neg h1, if_neg h2]
        simpa using foldl_processEdge_totalLines cfg n.allEdges acc

theorem processNode_langSum (cfg : Config) (acc : Acc) (n : RepoNode) :
    langSum (processNode cfg acc n).langTotals
      = langSum acc.langTotals + (nodeAcceptedSizes cfg n).sum := by
  cases hn : n.name with
  | none => simp [processNode, nodeAcceptedSizes, hn]
  | some rn =>
    by_cases h1 : rn = ""
    · simp [processNode, nodeAcceptedSizes, hn, h1]
    · by_cases h2 : strLower rn ∈ cfg.excludedRepos ∨ strLower (n.fullName.getD "") ∈ cfg.excludedRepos
      · simp [processNode, nodeAcceptedSizes, hn, h1, h2]
      · simp only [processNode, nodeAcceptedSizes, hn, if_neg h1, if_neg h2]
        simpa using foldl_processEdge_langSum cfg n.allEdges acc

theorem processNode_ownerName (cfg : Config) (acc : Acc) (n : RepoNode) :
    (processNode cfg acc n).ownerName = acc.ownerName := by
  cases hn : n.name with
  | none => simp [processNode, hn]
  | some rn =>
    by_cases h1 : rn = ""
    · simp [processNode, hn, h1]
    · by_cases h2 : strLower rn ∈ cfg.excludedRepos ∨ strLower (n.fullName.getD "") ∈ cfg.excludedRepos
      · simp [processNode, hn, h1, h2]
      · simp only [processNode, hn, if_neg h1, if_neg h2]
        simpa using (foldl_processEdge_misc cfg n.allEdges acc).1

theorem foldl_processNode_totalLines (cfg : Config) (ns : List RepoNode) (acc : Acc) :
    (ns.foldl (processNode cfg) acc).totalLines
      = acc.totalLines + (nodesAcceptedSizes cfg ns).sum := by
  induction ns generalizing acc with
  | nil => simp [nodesAcceptedSizes]
  | cons n ns ih =>
    rw [List.foldl_cons, ih, processNode_totalLines]
    simp [nodesAcceptedSizes]
    ring

theorem foldl_processNode_langSum (cfg : Config) (ns : List RepoNode) (acc : Acc) :
    langSum ((ns.foldl (processNode cfg) acc).langTotals)
      = langSum acc.langTotals + (nodesAcceptedSizes cfg ns).sum := by
  induction ns generalizing acc with
  | nil => simp [nodesAcceptedSizes]
  | cons n ns ih =>
    rw [List.foldl_cons, ih, processNode_langSum]
    simp [nodesAcceptedSizes]
    ring

theorem captureOwnerName_totalLines (cfg : Config) (ow : OwnerData) (acc : Acc) :
    (captureOwnerName cfg ow acc).totalLines = acc.totalLines := by
  cases h : acc.ownerName <;> simp [captureOwnerName, h]

theorem captureOwnerName_langTotals (cfg : Config) (ow : OwnerData) (acc : Acc) :
    (captureOwnerName cfg ow acc).langTotals = acc.langTotals := by
  cases h : acc.ownerName <;> simp [captureOwnerName, h]

/-! The outer pagination loop: its totals. -/

theorem runPages_sums (cfg : Config) (pages : List RepoPage) (acc acc2 : Acc)
    (h : runPages cfg pages acc = .ok acc2) :
    acc2.totalLines = acc.totalLines + (pagesAcceptedSizes cfg pages).sum ∧
    langSum acc2.langTotals = langSum acc.langTotals + (pagesAcceptedSizes cfg pages).sum := by
  induction pages generalizing acc with
  | nil =>
    simp only [runPages] at h
    cases h
    simp [pagesAcceptedSizes]
  | cons page rest ih =>
    cases hw : page.owner with
    | none =>
      rw [runPages, hw] at h
      exact Except.noConfusion h
    | some ow =>
      rw [runPages, hw] at h
      simp only at h
      by_cases hnext : ow.reposHasNextPage
      · rw [if_pos hnext] at h
        obtain ⟨ih1, ih2⟩ := ih _ h
        rw [ih1, ih2, foldl_processNode_totalLines, foldl_processNode_langSum,
          captureOwnerName_totalLines, captureOwnerName_langTotals]
        simp only [pagesAcceptedSizes, hw, if_pos hnext, List.sum_append]
        constructor <;> ring
      · rw [if_neg hnext] at h
        cases h
        rw [foldl_processNode_totalLines, foldl_processNode_langSum,
          captureOwnerName_totalLines, captureOwnerName_langTotals]
        simp [pagesAcceptedSizes, hw, if_neg hnext]

/-- Claim C4: a repository whose lowercase bare name or lowercase qualified
name is in the excluded-repository set is skipped entirely: processing it
leaves the whole accumulator (stars, forks, grand total, per-language totals,
repository count) unchanged, and removing it from any node list leaves the
folded accumulator unchanged. -/
theorem C4_excluded_repo_skipped (cfg : Config) (acc : Acc) (n : RepoNode)
    (h : strLower (n.name.getD "") ∈ cfg.excludedRepos ∨
      strLower (n.fullName.getD "") ∈ cfg.excludedRepos) :
    processNode cfg acc n = acc ∧
    (∀ (pre post : List RepoNode) (acc0 : Acc),
      (pre ++ n :: post).foldl (processNode cfg) acc0
        = (pre ++ post).foldl (processNode cfg) acc0) := by
  have key : ∀ a : Acc, processNode cfg a n = a := by
    intro a
    cases hn : n.name with
    | none => simp [processNode, hn]
    | some rn =>
      by_cases h1 : rn = ""
      · simp [processNode, hn, h1]
      · have h2 : strLower rn ∈ cfg.excludedRepos ∨
            strLower (n.fullName.getD "") ∈ cfg.excludedRepos := by
          rcases h with h | h
          · left; simpa [hn] using h
          · right; exact h
        simp [processNode, hn, h1, h2]
  refine ⟨key acc, fun pre post acc0 => ?_⟩
  rw [List.foldl_append, List.foldl_cons, key, ← List.foldl_append]

/-- Claim C4 witness: in the two-repository scenario, the excluded repository
`b` leaves any accumulator untouched and can be dropped from the page. -/
theorem C4_excluded_repo_witness :
    processNode cfgS initAcc nodeB = initAcc ∧
    ([nodeA] ++ nodeB :: []).foldl (processNode cfgS) initAcc
      = ([nodeA] ++ []).foldl (processNode cfgS) initAcc := by
  have h := C4_excluded_repo_skipped cfgS initAcc nodeB (by decide)
  exact ⟨h.1, h.2 [nodeA] [] initAcc⟩

theorem strTruthy_pyOrOpt (a b : Option String) :
    strTruthy (pyOrOpt a b) = (strTruthy a || strTruthy b) := by
  cases ha : strTruthy a <;> simp [pyOrOpt, ha]

theorem processNode_congr (cfg : Config) (acc : Acc) (m1 m2 : RepoNode)
    (hname : m1.name = m2.name) (hfull : m1.fullName = m2.fullName)
    (hstars : m1.stargazerCount = m2.stargazerCount)
    (hforks : m1.forkCount = m2.forkCount)
    (hedges : m1.allEdges = m2.allEdges) :
    processNode cfg acc m1 = processNode cfg acc m2 := by
  unfold processNode
  rw [hname, hfull, hstars, hforks, hedges]

/-- Claim C6: when a repository's inline language block reports a next page
with a truthy cursor, processing the node equals processing the same node
with the inline and all continuation-page edges concatenated into a single
exhausted block — totals are as if all edges had arrived in one page. -/
theorem C6_language_pagination (cfg : Config) (acc : Acc) (n : RepoNode) (lb : LangBlock)
    (hlb : n.languages = some lb) (hnext : lb.hasNextPage = true)
    (hcur : strTruthy lb.endCursor = true) :
    processNode cfg acc n =
      processNode cfg acc
        { n with languages := some { edges := lb.edges ++ fetchChain n.contPages,
                                     hasNextPage := false, endCursor := none },
                 contPages := [] } := by
  by_cases hfn : strTruthy n.fullName = true
  · have e1 : n.allEdges = lb.edges ++ fetchChain n.contPages := by
      simp [RepoNode.allEdges, hlb, hnext, hcur, hfn, fetchAdditionalLanguages]
    have e2 : RepoNode.allEdges
        { n with languages := some { edges := lb.edges ++ fetchChain n.contPages,
                                     hasNextPage := false, endCursor := none },
                 contPages := [] }
        = lb.edges ++ fetchChain n.contPages := by
      simp [RepoNode.allEdges]
    exact processNode_congr cfg acc n _ rfl rfl rfl rfl (e1.trans e2.symm)
  · have hname : strTruthy n.name = false := by
      have h0 : strTruthy n.fullName = false := by
        cases h3 : strTruthy n.fullName
        · rfl
        · exact absurd h3 hfn
      rw [RepoNode.fullName, strTruthy_pyOrOpt] at h0
      exact (Bool.or_eq_false_iff.mp h0).2
    cases hn : n.name with
    | none => simp [processNode, hn]
    | some rn =>
      have hrn : rn = "" := by
        rw [hn] at hname
        simpa [strTruthy] using hname
      simp [processNode, hn, hrn]

/-- Claim C6 witness: a repository whose listing spans one inline page and two
continuation pages is processed like a single merged page. -/
theorem C6_language_pagination_witness :
    processNode cfgS initAcc nodeC =
      processNode cfgS initAcc
        { nodeC with languages := some { edges := lbC.edges ++ fetchChain nodeC.contPages,
                                         hasNextPage := false, endCursor := none },
                     contPages := [] } :=
  C6_language_pagination cfgS initAcc nodeC lbC rfl rfl (by decide)

/-- Claim C3 (amended): the representative color recorded for a language is
the defaulted color (empty or missing replaced by `#ededed`) of the first
accepted edge carrying that name, and it is never changed afterwards: every
stored color is non-empty (the bucket is created with `color or default`), so
the update branch guarded by `not bucket.get("color")` never fires and a later
non-empty color is not recorded. -/
theorem C3_first_color_recorded (cfg : Config) (acc : Acc) (e : Edge) (lname : String)
    (s : Int) (t : LangTotal) :
    e.defaultedColor ≠ "" ∧
    (acceptedSize cfg e = some s → e.langName = some lname →
      lookupLang lname acc.langTotals = none →
      lookupLang lname (processEdge cfg acc e).langTotals
        = some { size := s, color := e.defaultedColor }) ∧
    (lookupLang lname acc.langTotals = some t → t.color ≠ "" →
      (lookupLang lname (processEdge cfg acc e).langTotals).map LangTotal.color
        = some t.color) ∧
    ((∀ p ∈ acc.langTotals, p.2.color ≠ "") →
      ∀ p ∈ (processEdge cfg acc e).langTotals, p.2.color ≠ "") := by
  have hcol : e.defaultedColor ≠ "" :=
    pyOrStr_ne_empty e.langColor DEFAULT_LANGUAGE_COLOR (by decide)
  refine ⟨hcol, ?_, ?_, ?_⟩
  · intro hacc hname habs
    rw [processEdge_accepted cfg acc e lname s hname hacc]
    show lookupLang lname (updateLangTotals lname s e.defaultedColor acc.langTotals)
      = some { size := s, color := e.defaultedColor }
    rw [lookupLang_updateLangTotals_self, habs]
    simp [bumpBucket, pyOrStr, hcol]
  · intro hpres htc
    cases hacc : acceptedSize cfg e with
    | none => rw [processEdge_skipped cfg acc e hacc, hpres]; rfl
    | some s2 =>
      obtain ⟨lname2, hname2, -⟩ := acceptedSize_name cfg e s2 hacc
      rw [processEdge_accepted cfg acc e lname2 s2 hname2 hacc]
      show (lookupLang lname (updateLangTotals lname2 s2 e.defaultedColor acc.langTotals)).map
        LangTotal.color = some t.color
      by_cases hsame : lname = lname2
      · subst hsame
        rw [lookupLang_updateLangTotals_self, hpres]
        simp [bumpBucket_color_of_ne t s2 e.defaultedColor htc]
      · rw [lookupLang_updateLangTotals_other lname2 lname hsame, hpres]; rfl
  · intro hinv
    cases hacc : acceptedSize cfg e with
    | none => rw [processEdge_skipped cfg acc e hacc]; exact hinv
    | some s2 =>
      obtain ⟨lname2, hname2, -⟩ := acceptedSize_name cfg e s2 hacc
      rw [processEdge_accepted cfg acc e lname2 s2 hname2 hacc]
      exact updateLangTotals_colors lname2 s2 e.defaultedColor acc.langTotals hinv

/-- Claim C3 counterexample: language `X`'s first accepted edge has no color
and a later accepted edge carries `#ff0000`, yet the run records the default
`#ededed` — the later non-empty color is not the one recorded. -/
theorem C3_counterexample :
    (runPages cfgS [pageX] initAcc).map (fun acc => lookupLang "X" acc.langTotals)
      = .ok (some { size := 12, color := "#ededed" }) ∧
    "#ededed" ≠ "#ff0000" :=
  ⟨rfl, by decide⟩

/-! The excluded-language key invariant, level by level. -/

theorem processEdge_excl_keys (cfg : Config) (acc : Acc) (e : Edge)
    (hl : ∀ p ∈ acc.langTotals, strLower p.1 ∉ cfg.excludedLanguages) :
    ∀ p ∈ (processEdge cfg acc e).langTotals, strLower p.1 ∉ cfg.excludedLanguages := by
  cases h : acceptedSize cfg e with
  | none => rw [processEdge_skipped cfg acc e h]; exact hl
  | some s =>
    obtain ⟨lname, hname, -, hexcl, -⟩ := acceptedSize_name cfg e s h
    rw [processEdge_accepted cfg acc e lname s hname h]
    exact updateLangTotals_keys (Q := fun k => strLower k ∉ cfg.excludedLanguages)
      lname s e.defaultedColor acc.langTotals hexcl hl

theorem foldl_processEdge_excl_keys (cfg : Config) (l : List Edge) (acc : Acc)
    (hl : ∀ p ∈ acc.langTotals, strLower p.1 ∉ cfg.excludedLanguages) :
    ∀ p ∈ (l.foldl (processEdge cfg) acc).langTotals, strLower p.1 ∉ cfg.excludedLanguages := by
  induction l generalizing acc with
  | nil => exact hl
  | cons e l ih => exact ih (processEdge cfg acc e) (processEdge_excl_keys cfg acc e hl)

theorem processNode_excl_keys (cfg : Config) (acc : Acc) (n : RepoNode)
    (hl : ∀ p ∈ acc.langTotals, strLower p.1 ∉ cfg.excludedLanguages) :
    ∀ p ∈ (processNode cfg acc n).langTotals, strLower p.1 ∉ cfg.excludedLanguages := by
  cases hn : n.name with
  | none => simpa [processNode, hn] using hl
  | some rn =>
    by_cases h1 : rn = ""
    · simpa [processNode, hn, h1] using hl
    · by_cases h2 : strLower rn ∈ cfg.excludedRepos ∨ strLower (n.fullName.getD "") ∈ cfg.excludedRepos
      · simpa [processNode, hn, h1, h2] using hl
      · simp only [processNode, hn, if_neg h1, if_neg h2]
        simpa using foldl_processEdge_excl_keys cfg n.allEdges acc hl

theorem foldl_processNode_excl_keys (cfg : Config) (ns : List RepoNode) (acc : Acc)
    (hl : ∀ p ∈ acc.langTotals, strLower p.1 ∉ cfg.excludedLanguages) :
    ∀ p ∈ (ns.foldl (processNode cfg) acc).langTotals, strLower p.1 ∉ cfg.excludedLanguages := by
  induction ns generalizing acc with
  | nil => exact hl
  | cons n ns ih => exact ih (processNode cfg acc n) (processNode_excl_keys cfg acc n hl)

theorem runPages_excl_keys (cfg : Config) (pages : List RepoPage) (acc acc2 : Acc)
    (h : runPages cfg pages acc = .ok acc2)
    (hl : ∀ p ∈ acc.langTotals, strLower p.1 ∉ cfg.excludedLanguages) :
    ∀ p ∈ acc2.langTotals, strLower p.1 ∉ cfg.excludedLanguages := by
  induction pages generalizing acc with
  | nil =>
    simp only [runPages] at h
    cases h
    exact hl
  | cons page rest ih =>
    cases hw : page.owner with
    | none =>
      rw [runPages, hw] at h
      exact Except.noConfusion h
    | some ow =>
      rw [runPages, hw] at h
      simp only at h
      have hl2 : ∀ p ∈ (captureOwnerName cfg ow acc).langTotals,
          strLower p.1 ∉ cfg.excludedLanguages := by
        rw [captureOwnerName_langTotals]
        exact hl
      have hl3 := foldl_processNode_excl_keys cfg ow.nodes (captureOwnerName cfg ow acc) hl2
      by_cases hnext : ow.reposHasNextPage
      · rw [if_pos hnext] at h
        exact ih _ h hl3
      · rw [if_neg hnext] at h
        cases h
        exact hl3

/-- Names appearing in the output of the share computation come from the
accumulator. -/
theorem buildLanguageShares_names (cfg : Config) (lt : List (String × LangTotal)) (T : Int) :
    ∀ sh ∈ buildLanguageShares cfg lt T, ∃ p ∈ lt, sh.name = p.1 := by
  unfold buildLanguageShares
  by_cases h : T ≤ 0 ∨ lt = []
  · simp [h]
  · rw [if_neg h]
    intro sh hsh
    obtain ⟨p, hp, rfl⟩ := List.mem_map.mp hsh
    have hp2 : p ∈ List.insertionSort bySizeDesc lt := List.take_subset _ _ hp
    exact ⟨p, (List.perm_insertionSort bySizeDesc lt).mem_iff.mp hp2, rfl⟩

/-- Claim C5: an edge contributes nothing (the accumulator is unchanged)
exactly when its language name is falsy, its lowercase name is excluded, its
size does not parse as an integer, or the parsed size is non-positive; and a
language whose lowercase name is excluded never appears in the output list of
any run, however large its edges. -/
theorem C5_edge_filter (cfg : Config) (acc : Acc) (e : Edge) :
    (processEdge cfg acc e = acc ↔
      (strTruthy e.langName = false ∨
        strLower (e.langName.getD "") ∈ cfg.excludedLanguages ∨
        parseSize e.size = none ∨ (parseSize e.size).getD 0 ≤ 0)) ∧
    (∀ (pages : List RepoPage) (acc2 : Acc) (lname : String),
      runPages cfg pages initAcc = .ok acc2 →
      strLower lname ∈ cfg.excludedLanguages →
      ∀ sh ∈ buildLanguageShares cfg acc2.langTotals acc2.totalLines, sh.name ≠ lname) := by
  constructor
  · constructor
    · intro heq
      by_contra hno
      push_neg at hno
      obtain ⟨hn1, hn2, hn3, hn4⟩ := hno
      have hname : ∃ lname, e.langName = some lname ∧ lname ≠ "" := by
        cases hv : e.langName with
        | none => exact absurd (by simp [strTruthy, hv]) hn1
        | some v =>
          refine ⟨v, rfl, ?_⟩
          intro hv2
          exact hn1 (by simp [strTruthy, hv, hv2])
      obtain ⟨lname, hname, hne⟩ := hname
      obtain ⟨s, hs⟩ : ∃ s, parseSize e.size = some s := by
        cases hp : parseSize e.size with
        | none => exact absurd hp hn3
        | some s => exact ⟨s, rfl⟩
      have hpos : ¬s ≤ 0 := by
        rw [hs] at hn4
        simp at hn4
        omega
      have hacc : acceptedSize cfg e = some s := by
        obtain ⟨nd, sz⟩ := e
        cases nd with
        | none => simp [Edge.langName] at hname
        | some ln =>
          obtain ⟨nm, col⟩ := ln
          have : nm = some lname := by simpa [Edge.langName] using hname
          subst this
          have hexc : strLower lname ∉ cfg.excludedLanguages := by
            simpa [Edge.langName] using hn2
          simp only [acceptedSize, Option.getD_some, if_neg hne, if_neg hexc]
          simp only [Edge.langName, Option.getD_some] at hs ⊢
          rw [hs]
          simp [hpos]
      have := processEdge_totalLines cfg acc e
      rw [heq, hacc] at this
      have hspos := acceptedSize_pos cfg e s hacc
      simp at this
      omega
    · intro hcond
      apply processEdge_skipped
      obtain ⟨nd, sz⟩ := e
      cases nd with
      | none => rfl
      | some ln =>
        obtain ⟨nm, col⟩ := ln
        cases nm with
        | none => rfl
        | some lname =>
          rcases hcond with h | h | h | h
          · have : lname = "" := by simpa [strTruthy, Edge.langName] using h
            simp [acceptedSize, this]
          · have : strLower lname ∈ cfg.excludedLanguages := by
              simpa [Edge.langName] using h
            simp [acceptedSize, this]
          · simp [acceptedSize, h]
          · cases hp : parseSize sz with
            | none => simp [acceptedSize, hp]
            | some s =>
              have : s ≤ 0 := by simpa [hp] using h
              simp [acceptedSize, hp, this]
  · intro pages acc2 lname hrun hexcl sh hsh
    intro heq
    have hkeys := runPages_excl_keys cfg pages initAcc acc2 hrun (by simp [initAcc])
    obtain ⟨p, hp, hnm⟩ := buildLanguageShares_names cfg acc2.langTotals acc2.totalLines sh hsh
    have := hkeys p hp
    rw [← hnm, heq] at this
    exact this hexcl

/-- Claim C1: the grand total handed to the share computation is the sum of
all accepted edge sizes across all included repositories of the run, it also
equals the sum of the accumulated per-language sizes, and over the full
(untruncated) accumulator the exact rational percentages
`size / grand_total * 100` sum to `100` whenever the grand total is
positive. -/
theorem C1_grand_total (cfg : Config) (pages : List RepoPage) (acc : Acc)
    (h : runPages cfg pages initAcc = .ok acc) :
    acc.totalLines = (pagesAcceptedSizes cfg pages).sum ∧
    langSum acc.langTotals = acc.totalLines ∧
    (0 < acc.totalLines →
      (acc.langTotals.map fun p => (p.2.size : ℚ) / (acc.totalLines : ℚ) * 100).sum = 100) := by
  obtain ⟨h1, h2⟩ := runPages_sums cfg pages initAcc acc h
  have hinit1 : initAcc.totalLines = 0 := rfl
  have hinit2 : langSum initAcc.langTotals = 0 := rfl
  rw [hinit1, zero_add] at h1
  rw [hinit2, zero_add] at h2
  have hls : langSum acc.langTotals = acc.totalLines := by rw [h2, h1]
  refine ⟨h1, hls, ?_⟩
  intro hpos
  have key : ∀ (l : List (String × LangTotal)) (c : ℚ),
      (l.map fun p => (p.2.size : ℚ) * c).sum = (langSum l : ℚ) * c := by
    intro l c
    induction l with
    | nil => simp [langSum]
    | cons p rest ih =>
      rw [List.map_cons, List.sum_cons, ih, langSum_cons]
      push_cast
      ring
  have hTne : ((acc.totalLines : Int) : ℚ) ≠ 0 := by
    have hq : (0 : ℚ) < ((acc.totalLines : Int) : ℚ) := by exact_mod_cast hpos
    exact ne_of_gt hq
  have hmaps : (acc.langTotals.map fun p => (p.2.size : ℚ) / (acc.totalLines : ℚ) * 100).sum
      = (acc.langTotals.map fun p => (p.2.size : ℚ) * (100 / (acc.totalLines : ℚ))).sum := by
    congr 1
    apply List.map_congr_left
    intro p hp
    ring
  rw [hmaps, key, hls, mul_comm, div_mul_cancel₀ _ hTne]

/-- Claim C1 witness: the two-repository scenario — grand total 500, Go 80%
plus Python 20% summing to exactly 100%. -/
theorem C1_grand_total_witness :
    accS.totalLines = (pagesAcceptedSizes cfgS [pageS]).sum ∧
    langSum accS.langTotals = accS.totalLines ∧
    (0 < accS.totalLines →
      (accS.langTotals.map fun p => (p.2.size : ℚ) / (accS.totalLines : ℚ) * 100).sum = 100) :=
  C1_grand_total cfgS [pageS] accS rfl

/-- Claim C2: the share list is empty whenever the grand total is non-positive
or nothing was accumulated; otherwise it has length `min N (#languages)`, is
sorted by non-increasing size, each entry's percentage is exactly
`size / grand_total * 100`, and truncation happens only after sorting: every
language left out by the cut is no larger than every entry kept. -/
theorem C2_build_language_shares (cfg : Config) (lt : List (String × LangTotal)) (T : Int)
    (hT : 0 < T) (hlt : lt ≠ []) :
    (∀ (S : Int) (l : List (String × LangTotal)), S ≤ 0 ∨ l = [] →
      buildLanguageShares cfg l S = []) ∧
    (buildLanguageShares cfg lt T).length = min cfg.languagesLimit lt.length ∧
    List.Sorted (fun a b : LanguageShare => b.size ≤ a.size) (buildLanguageShares cfg lt T) ∧
    (∀ sh ∈ buildLanguageShares cfg lt T, sh.percent = (sh.size : ℚ) / (T : ℚ) * 100) ∧
    (∀ sh ∈ buildLanguageShares cfg lt T, ∀ q ∈ lt,
      (∀ r ∈ buildLanguageShares cfg lt T, r.name ≠ q.1) → q.2.size ≤ sh.size) := by
  have hcond : ¬(T ≤ 0 ∨ lt = []) := by
    push_neg
    exact ⟨by omega, hlt⟩
  have hbuild : buildLanguageShares cfg lt T
      = ((List.insertionSort bySizeDesc lt).take cfg.languagesLimit).map (fun p =>
          { name := p.1, size := p.2.size,
            color := strTake (pyOrStr (some p.2.color) DEFAULT_LANGUAGE_COLOR) 7,
            percent := if T = 0 then 0 else ((p.2.size : ℚ) / (T : ℚ)) * 100 }) := by
    rw [buildLanguageShares, if_neg hcond]
  refine ⟨?_, ?_, ?_, ?_, ?_⟩
  · intro S l hSl
    rw [buildLanguageShares, if_pos hSl]
  · rw [hbuild, List.length_map, List.length_take,
      (List.perm_insertionSort bySizeDesc lt).length_eq]
  · rw [hbuild]
    have hs : List.Sorted bySizeDesc (List.insertionSort bySizeDesc lt) :=
      List.sorted_insertionSort bySizeDesc lt
    have hst : List.Sorted bySizeDesc
        ((List.insertionSort bySizeDesc lt).take cfg.languagesLimit) :=
      List.Pairwise.sublist (List.take_sublist _ _) hs
    exact List.Pairwise.map _ (fun a b hab => hab) hst
  · rw [hbuild]
    intro sh hsh
    obtain ⟨p, hp, rfl⟩ := List.mem_map.mp hsh
    have hT0 : ¬T = 0 := by omega
    simp [hT0]
  · rw [hbuild]
    intro sh hsh q hq hnot
    obtain ⟨p, hp, rfl⟩ := List.mem_map.mp hsh
    have hq2 : q ∈ List.insertionSort bySizeDesc lt :=
      (List.perm_insertionSort bySizeDesc lt).mem_iff.mpr hq
    rw [← List.take_append_drop cfg.languagesLimit (List.insertionSort bySizeDesc lt)] at hq2
    rcases List.mem_append.mp hq2 with hq3 | hq3
    · exact absurd rfl (hnot _ (List.mem_map_of_mem _ hq3))
    · have hs : List.Sorted bySizeDesc (List.insertionSort bySizeDesc lt) :=
        List.sorted_insertionSort bySizeDesc lt
      rw [← List.take_append_drop cfg.languagesLimit
        (List.insertionSort bySizeDesc lt)] at hs
      exact (List.pairwise_append.mp hs).2.2 p hp q hq3

/-- Claim C2 witness: the scenario accumulator at grand total 500 — output
length `min 10 2` and exact percentages. -/
theorem C2_build_language_shares_witness :
    (buildLanguageShares cfgS accS.langTotals 500).length
      = min cfgS.languagesLimit accS.langTotals.length ∧
    (∀ sh ∈ buildLanguageShares cfgS accS.langTotals 500,
      sh.percent = (sh.size : ℚ) / ((500 : Int) : ℚ) * 100) := by
  have h := C2_build_language_shares cfgS accS.langTotals 500 (by omega) (by decide)
  exact ⟨h.2.1, h.2.2.2.1⟩

end GithubMetrics
